import Mathlib

/-
Verification of the Dialogue Reveal & Layout Engine (engine/ui) against its
specification.  The Python source is shallowly embedded: floats become exact
rationals (ℚ), Python ints become Int/Nat, lists/deques become List, and the
mutating methods become state-passing functions.  Each definition mirrors one
function of the source (named in its doc comment).
-/

set_option maxRecDepth 4000

namespace Solid

/-- Embeds `RevealParams` of engine/ui/text_model.py (fields used by the
reveal/timing logic; floats as ℚ, pixel counts as Int). -/
structure RevealParams where
  per_line_delay : ℚ
  intro_duration : ℚ
  intro_offset_px : Int
  chars_per_sec : ℚ
  pause_short_s : ℚ
  pause_long_s : ℚ
  pause_ellipsis_s : ℚ
deriving DecidableEq

/-- The dataclass defaults of `RevealParams` (0.15, 0.18, 10, 45.0, 0.06,
0.25, 0.35). -/
def defaultReveal : RevealParams :=
  { per_line_delay := 3/20
    intro_duration := 9/50
    intro_offset_px := 10
    chars_per_sec := 45
    pause_short_s := 3/50
    pause_long_s := 1/4
    pause_ellipsis_s := 7/20 }

/-- Embeds the `Entry` dataclass of engine/ui/text_model.py.  Text is a list
of characters; `t` is the elapsed animation time and `cm_reveal` the optional
cumulative typewriter reveal table. -/
structure Entry where
  text : List Char
  t : ℚ
  duration : ℚ
  offset_px : Int
  visible : Bool
  wait_for_input : Bool
  cm_reveal : Option (List ℚ)
  is_player_choice : Bool
deriving DecidableEq

/-- The state owned by `TextModel` of engine/ui/text_model.py: the visible
list, the pending FIFO and the auto-release timer. -/
structure TextModel where
  reveal : RevealParams
  visible : List Entry
  pending : List Entry
  release_timer : ℚ
deriving DecidableEq

/-- Embeds `TextModel.__init__`: empty containers, timer 0. -/
def TextModel.init (rp : RevealParams) : TextModel :=
  { reveal := rp, visible := [], pending := [], release_timer := 0 }

/-- Splitting a character list at a separator, keeping empty pieces, as
Python's `str.split(sep)` does; the result is never empty. -/
def splitOnChar (sep : Char) : List Char → List (List Char)
  | [] => [[]]
  | c :: rest =>
    if c = sep then [] :: splitOnChar sep rest
    else
      match splitOnChar sep rest with
      | [] => [[c]]
      | p :: ps => (c :: p) :: ps

/-- Python's `str.splitlines` restricted to the newline character: pieces
between newline characters, with no empty final piece, and `[]` for the empty
string. -/
def splitlines (text : List Char) : List (List Char) :=
  if text = [] then []
  else
    let ps := splitOnChar '\n' text
    if text.getLast? = some '\n' then ps.dropLast else ps

/-- The while-loop core of `TextModel._compute_typewriter_timing`: walks the
characters with the pending `carry` pause, returning the per-visible-character
time list and the final carry (the trailing delay).  It mirrors the source
exactly, including the ellipsis special case in which the carry set to
`pause_ellipsis_s` is added to the second AND third dot and is still pending
after the `continue`. -/
def twTimes (rp : RevealParams) (base : ℚ) : List Char → ℚ → List ℚ × ℚ
  | [], carry => ([], carry)
  | '\n' :: rest, carry => twTimes rp base rest (carry + rp.pause_long_s)
  | '.' :: '.' :: '.' :: rest, carry =>
    let r := twTimes rp base rest rp.pause_ellipsis_s
    ((base + carry) :: (base + rp.pause_ellipsis_s) ::
      (base + rp.pause_ellipsis_s) :: r.1, r.2)
  | c :: rest, carry =>
    let r := twTimes rp base rest
      (if c = ',' ∨ c = ';' ∨ c = ':' then rp.pause_short_s
       else if c = '.' ∨ c = '!' ∨ c = '?' then rp.pause_long_s
       else 0)
    ((base + carry) :: r.1, r.2)

/-- The cumulative sums produced by the `for t in times: acc += t` loop of
`_compute_typewriter_timing` (one entry per element, starting from `acc`). -/
def cumSums : ℚ → List ℚ → List ℚ
  | _, [] => []
  | acc, t :: ts => (acc + t) :: cumSums (acc + t) ts

/-- Embeds `TextModel._compute_typewriter_timing`: total duration together
with the cumulative reveal-fraction table. -/
def compute_typewriter_timing (rp : RevealParams) (text : List Char) :
    ℚ × List ℚ :=
  let cps := Max.max (1/1000000) rp.chars_per_sec
  let base := 1 / cps
  let r := twTimes rp base text 0
  let total := r.1.sum + r.2
  if total ≤ 0 then (0, [0])
  else (total, 0 :: (cumSums 0 r.1).map (fun x => x / total))

/-- Embeds `TextModel._make_entry`. -/
def TextModel.make_entry (m : TextModel) (text : List Char)
    (animated wait : Bool) : Entry :=
  let rp := m.reveal
  if animated = true ∧ rp.intro_offset_px = 0 then
    let r := compute_typewriter_timing rp text
    { text := text, t := 0, duration := r.1, offset_px := 0, visible := false
      wait_for_input := wait, cm_reveal := some r.2, is_player_choice := false }
  else
    { text := text, t := 0
      duration := if animated then rp.intro_duration else 0
      offset_px := if animated then rp.intro_offset_px else 0
      visible := false, wait_for_input := wait, cm_reveal := none
      is_player_choice := false }

/-- Embeds `TextModel.append_line`. -/
def TextModel.append_line (m : TextModel) (line : List Char)
    (animated wait : Bool) : TextModel :=
  let e := m.make_entry line animated wait
  if animated ∨ wait then { m with pending := m.pending ++ [e] }
  else
    { m with visible :=
        m.visible ++ [{ e with visible := true, t := e.duration }] }

/-- Embeds `TextModel.queue_lines`. -/
def TextModel.queue_lines (m : TextModel) (text_block : List Char)
    (wait_for_input : Bool) : TextModel :=
  (splitlines text_block).foldl
    (fun acc line => acc.append_line line true wait_for_input) m

/-- Embeds `TextModel.append_visible_lines`. -/
def TextModel.append_visible_lines (m : TextModel) (lines : List (List Char))
    (animated : Bool) : TextModel :=
  lines.foldl
    (fun acc line =>
      let e := acc.make_entry line animated false
      { acc with visible := acc.visible ++ [{ e with visible := true, t := 0 }] })
    m

/-- Embeds `TextModel.trim_oldest_entries` (returns the new state and the
removed count). -/
def TextModel.trim_oldest_entries (m : TextModel) (n : Int) :
    TextModel × Int :=
  if n ≤ 0 ∨ m.visible = [] then (m, 0)
  else
    let k := Min.min n (m.visible.length : Int)
    ({ m with visible := m.visible.drop k.toNat }, k)

/-- The `last_done` test of `TextModel.update`: the visible list is empty or
its last entry is within 1e-4 of its duration. -/
def TextModel.last_done (m : TextModel) : Bool :=
  match m.visible.getLast? with
  | none => true
  | some l => decide (l.duration - 1/10000 ≤ l.t)

/-- Embeds `TextModel.update`, returning (new state, released, animating).
Step 1 auto-releases the pending head (timer gated); step 2 advances every
still-animating visible entry (including one released this call, as in the
source) and reports whether any entry was advancing. -/
def TextModel.update (m : TextModel) (dt : ℚ) : TextModel × Bool × Bool :=
  let step1 : TextModel × Bool :=
    match m.pending with
    | [] => (m, false)
    | first :: rest =>
      if first.wait_for_input then (m, false)
      else if m.last_done then
        let timer := m.release_timer + dt
        if m.reveal.per_line_delay ≤ timer then
          ({ m with
              release_timer := 0
              pending := rest
              visible := m.visible ++ [{ first with visible := true }] }, true)
        else ({ m with release_timer := timer }, false)
      else (m, false)
  let m1 := step1.1
  let animating := m1.visible.any (fun e => decide (e.t < e.duration))
  let adv := fun e : Entry =>
    if e.t < e.duration then { e with t := Min.min e.duration (e.t + dt) }
    else e
  ({ m1 with visible := m1.visible.map adv }, step1.2, animating)

/-- Step 2 of `TextModel.on_player_press` (its `_release_next` call guarded by
`if self._pending`): pop the pending head into the visible list, resetting the
release timer. -/
def TextModel.press_release (m : TextModel) : TextModel × Bool :=
  match m.pending with
  | [] => (m, false)
  | p :: rest =>
    ({ m with
        release_timer := 0
        pending := rest
        visible := m.visible ++ [{ p with visible := true }] }, true)

/-- Embeds `TextModel.on_player_press`: snap the still-animating last visible
entry, else release the pending head. -/
def TextModel.on_player_press (m : TextModel) : TextModel × Bool :=
  match m.visible.getLast? with
  | some last =>
    if last.t < last.duration then
      ({ m with visible :=
          m.visible.dropLast ++ [{ last with t := last.duration }] }, true)
    else m.press_release
  | none => m.press_release

/-- Iterated presses (the state after n calls to `on_player_press`). -/
def TextModel.pressN : Nat → TextModel → TextModel
  | 0, m => m
  | n + 1, m => TextModel.pressN n m.on_player_press.1

/-- Embeds `ScrollModel` of engine/ui/scroll_model.py. -/
structure ScrollModel where
  content_h : Int
  viewport_h : Int
  offset : ℚ
deriving DecidableEq

/-- Embeds `ScrollModel.max`. -/
def ScrollModel.max (s : ScrollModel) : ℚ :=
  Max.max 0 ((s.content_h - s.viewport_h : Int) : ℚ)

/-- Embeds `ScrollModel.clamp`. -/
def ScrollModel.clamp (s : ScrollModel) : ScrollModel :=
  { s with offset := Max.max 0 (Min.min s.max s.offset) }

/-- Embeds `ScrollModel.scroll`. -/
def ScrollModel.scroll (s : ScrollModel) (dy : ℚ) : ScrollModel :=
  ScrollModel.clamp { s with offset := s.offset + dy }

/-- Embeds `TextLayout._strip_markup` of engine/ui/text_layout.py: removes
every (leftmost-first) occurrence of the four run markers, written here with
their characters escaped (\x7b = opening brace, \x7d = closing brace). -/
def stripMarkup : List Char → List Char
  | '\x7b' :: 'b' :: '\x7d' :: rest => stripMarkup rest
  | '\x7b' :: 'i' :: '\x7d' :: rest => stripMarkup rest
  | '\x7b' :: '/' :: 'b' :: '\x7d' :: rest => stripMarkup rest
  | '\x7b' :: '/' :: 'i' :: '\x7d' :: rest => stripMarkup rest
  | c :: rest => c :: stripMarkup rest
  | [] => []

/-- The inner binary search of `TextLayout._hard_wrap_long_word`: `lo`, `hi`,
`best` as in the source.  The extra `mid = 0` exit mirrors Python's `hi`
becoming `-1` there (it can only happen for `lo = 0`, which the source never
passes). -/
def bsearchBest (p : Nat → Bool) (lo hi best : Nat) : Nat :=
  if h : lo ≤ hi then
    let mid := (lo + hi) / 2
    if p mid then bsearchBest p (mid + 1) hi mid
    else if mid = 0 then best
    else bsearchBest p lo (mid - 1) best
  else best
termination_by hi + 1 - lo
decreasing_by
  · omega
  · omega

/-- The binary-search result for the suffix `s` (the source's
`word[i:]`): widest fitting stripped prefix, starting from
`lo, hi, best = 1, len(word) - i, 1`. -/
def hwBest (measure : List Char → Nat) (wrapW : Int) (s : List Char) : Nat :=
  bsearchBest
    (fun m => decide ((measure (stripMarkup (s.take m)) : Int) ≤ wrapW))
    1 s.length 1

/-- Embeds `TextLayout._hard_wrap_long_word`, with the loop index `i`
represented by the remaining suffix (`word[i:]`); each pass emits
`word[i:i+best]` and advances by `best`. -/
def hard_wrap_long_word (measure : List Char → Nat) (wrapW : Int)
    (s : List Char) : List (List Char) :=
  if hn : s = [] then []
  else
    if hs : s.take (hwBest measure wrapW s) = [] then []
    else
      s.take (hwBest measure wrapW s) ::
        hard_wrap_long_word measure wrapW (s.drop (hwBest measure wrapW s))
termination_by s.length
decreasing_by
  rw [List.take_eq_nil_iff] at hs
  push_neg at hs
  have hlen : s.length ≠ 0 := by
    intro h0
    exact hn (List.eq_nil_of_length_eq_zero h0)
  simp only [List.length_drop]
  omega

/-- The inner word loop of `TextLayout.wrap` for one raw line: folds the
words with the accumulator `cur`, returning the lines appended to `out`
during the loop together with the final `cur`. -/
def wrapWords (measure : List Char → Nat) (wrapW : Int) :
    List (List Char) → List Char → List (List Char) × List Char
  | [], cur => ([], cur)
  | w :: ws, cur =>
    let cand := if cur = [] then w else cur ++ ' ' :: w
    if (measure (stripMarkup cand) : Int) ≤ wrapW then
      wrapWords measure wrapW ws cand
    else
      let pre : List (List Char) := if cur = [] then [] else [cur]
      if (measure (stripMarkup w) : Int) ≤ wrapW then
        let r := wrapWords measure wrapW ws w
        (pre ++ r.1, r.2)
      else
        let chunks := hard_wrap_long_word measure wrapW w
        if hc : chunks = [] then
          let r := wrapWords measure wrapW ws []
          (pre ++ r.1, r.2)
        else
          let r := wrapWords measure wrapW ws (chunks.getLast hc)
          (pre ++ chunks.dropLast ++ r.1, r.2)

/-- One raw (explicit) line of `TextLayout.wrap`: split on spaces, run the
word loop, then append the final `cur` (the dead `if not words` branch of the
source appends an empty line). -/
def wrapRaw (measure : List Char → Nat) (wrapW : Int) (raw : List Char) :
    List (List Char) :=
  let ws := splitOnChar ' ' raw
  if ws = [] then [[]]
  else
    let r := wrapWords measure wrapW ws []
    r.1 ++ [r.2]

/-- Embeds `TextLayout.wrap` (the width-measuring `self.font.size` is the
abstract parameter `measure`, applied to markup-stripped text as in the
source). -/
def TextLayout.wrap (measure : List Char → Nat) (wrapW : Int)
    (text : List Char) : List (List Char) :=
  if wrapW ≤ 0 then (if text = [] then [] else [text])
  else if text = [] then []
  else ((splitlines text).map (wrapRaw measure wrapW)).flatten

/-- The rendered lines cached per entry by `TextView._layout_entry` of
engine/ui/text_view.py (`_Layout` without the pygame surfaces: wrapped lines,
stacked pixel height, total character count). -/
structure LayoutC where
  lines : List (List Char)
  height : Nat
  total_chars : Nat
deriving DecidableEq

/-- The stacked height computed by `TextLayout.render_lines`: one rendered
surface height per line (the abstract `lineH`) plus `line_spacing` between
consecutive lines. -/
def render_lines_height (lineH : List Char → Nat) (gap : Nat) :
    List (List Char) → Nat
  | [] => 0
  | [l] => lineH l
  | l :: l2 :: rest => lineH l + gap + render_lines_height lineH gap (l2 :: rest)

/-- Embeds `TextView._layout_entry` (surfaces and prefix widths are dropped:
only the data the claims mention is kept). -/
def layout_entry (measure lineH : List Char → Nat) (gap : Nat) (e : Entry)
    (wrapW : Int) : LayoutC :=
  let lines := TextLayout.wrap measure wrapW e.text
  { lines := lines
    height := render_lines_height lineH gap lines
    total_chars := (lines.map List.length).sum }

/-- The layout cache of `TextView` (`self._wrap_w` and `self._cache`, the
dict modelled as an association list). -/
structure TextViewState where
  wrap_w : Int
  cache : List (Entry × LayoutC)
deriving DecidableEq

/-- Dictionary lookup `self._cache.get(e)`. -/
def cache_get (cache : List (Entry × LayoutC)) (e : Entry) : Option LayoutC :=
  match cache.find? (fun p => decide (p.1 = e)) with
  | some p => some p.2
  | none => none

/-- Embeds `TextView.ensure_layout`: wrap width ≤ 0 clears the cache; a width
change rebuilds the asked-about entries; otherwise missing entries are added
and stale keys evicted. -/
def ensure_layout (measure lineH : List Char → Nat) (gap : Nat)
    (st : TextViewState) (wrapW : Int) (entries : List Entry) :
    TextViewState :=
  if wrapW ≤ 0 then { wrap_w := wrapW, cache := [] }
  else if wrapW ≠ st.wrap_w then
    { wrap_w := wrapW
      cache := entries.map (fun e => (e, layout_entry measure lineH gap e wrapW)) }
  else
    let c1 := entries.foldl
      (fun c e =>
        match cache_get c e with
        | some _ => c
        | none => c ++ [(e, layout_entry measure lineH gap e st.wrap_w)])
      st.cache
    { wrap_w := st.wrap_w
      cache := c1.filter (fun p => decide (p.1 ∈ entries)) }

/-- The entry loop of `TextView.content_height`: look each entry up (laying
out at the cached width, or at the fallback width 1024 when that width is not
positive), summing heights plus `entry_gap` after every non-last entry. -/
def content_height_go (measure lineH : List Char → Nat) (gap entry_gap : Nat)
    (wrapW : Int) : List Entry → List (Entry × LayoutC) →
    Nat × List (Entry × LayoutC)
  | [], cache => (0, cache)
  | e :: rest, cache =>
    let lw : Int := if 0 < wrapW then wrapW else 1024
    let lc : LayoutC × List (Entry × LayoutC) :=
      match cache_get cache e with
      | some lay => (lay, cache)
      | none =>
        let lay := layout_entry measure lineH gap e lw
        (lay, cache ++ [(e, lay)])
    let r := content_height_go measure lineH gap entry_gap wrapW rest lc.2
    (lc.1.height + (if rest = [] then 0 else entry_gap) + r.1, r.2)

/-- Embeds `TextView.content_height` (also returns the mutated cache). -/
def content_height (measure lineH : List Char → Nat) (gap entry_gap : Nat)
    (st : TextViewState) (entries : List Entry) : Nat × TextViewState :=
  if entries = [] then (0, st)
  else
    let r := content_height_go measure lineH gap entry_gap st.wrap_w entries
      st.cache
    (r.1, { st with cache := r.2 })

/-- The per-entry cache accesses of `TextView.draw_into` (`lay =
self._cache[e]`): a missing key raises `KeyError`, modelled as
`Except.error`. -/
def draw_into_lookups : List Entry → List (Entry × LayoutC) →
    Except Unit Unit
  | [], _ => Except.ok ()
  | e :: rest, cache =>
    match cache_get cache e with
    | none => Except.error ()
    | some _ => draw_into_lookups rest cache

/-- Embeds the state/control effects of `TextView.draw_into`: it first calls
`ensure_layout(viewport.width, entries)`, then walks the entries reading
`self._cache[e]`.  The pygame blitting is pure rendering and is not modelled;
what is kept is whether the walk raises (`Except.error`) and the resulting
cache state. -/
def draw_into (measure lineH : List Char → Nat) (gap : Nat)
    (st : TextViewState) (viewportW : Int) (entries : List Entry) :
    Except Unit TextViewState :=
  let st1 := ensure_layout measure lineH gap st viewportW entries
  match draw_into_lookups entries st1.cache with
  | Except.ok _ => Except.ok st1
  | Except.error _ => Except.error ()

/-- Embeds `ScrollModel.to_top`. -/
def ScrollModel.to_top (s : ScrollModel) : ScrollModel :=
  { s with offset := 0 }

/-- Embeds `ScrollModel.to_bottom`. -/
def ScrollModel.to_bottom (s : ScrollModel) : ScrollModel :=
  { s with offset := s.max }

/-- The number of visible (non-newline) characters of a text, as counted by
the typewriter timing loop. -/
def visible_count (text : List Char) : Nat :=
  (text.filter (fun c => c != '\n')).length

/-- The entry produced by releasing a pending entry and then snapping its
animation (visible, elapsed time = duration). -/
def settled_release (e : Entry) : Entry :=
  { e with visible := true, t := e.duration }

/-- The model after `queue_lines("Hello\nWorld", wait_for_input=True)` on a
fresh `TextModel` with default reveal parameters. -/
def helloWorldModel : TextModel :=
  (TextModel.init defaultReveal).queue_lines
    ['H', 'e', 'l', 'l', 'o', '\n', 'W', 'o', 'r', 'l', 'd'] true

/-- A reachable model whose FIRST visible entry is still animating while the
LAST visible one is settled: `append_visible_lines(["a"], animated=True)`,
then `append_line("b", animated=False)`, then `append_line("c",
animated=True)`. -/
def mixedModel : TextModel :=
  (((TextModel.init defaultReveal).append_visible_lines [['a']] true).append_line
      ['b'] false false).append_line ['c'] true false

/-- A concrete entry for exercising the view-layer claims. -/
def c9entry : Entry :=
  { text := ['H', 'i'], t := 0, duration := 0, offset_px := 0, visible := true
    wait_for_input := false, cm_reveal := none, is_player_choice := false }

/-- A concrete view state with a previously positive wrap width and an empty
cache. -/
def c9view : TextViewState := { wrap_w := 50, cache := [] }

/-!  Theorems.  Each claim of the specification audit is settled by one
/-- -/-documented theorem below (plus a witness or counterexample where the
claim calls for one). -/

/-- Claim C6: for every `ScrollModel` state and every scroll delta, after any
of `scroll(dy)`, `clamp()`, `to_top()`, `to_bottom()` the stored offset lies
within `[0, max(0, content_h - viewport_h)]` (the operations leave
`content_h` and `viewport_h` unchanged, so `.max` of the result is that
bound). -/
theorem scroll_offset_clamped (s : ScrollModel) (dy : ℚ) :
    (0 ≤ (s.scroll dy).offset ∧ (s.scroll dy).offset ≤ (s.scroll dy).max) ∧
    (0 ≤ s.clamp.offset ∧ s.clamp.offset ≤ s.clamp.max) ∧
    (0 ≤ s.to_top.offset ∧ s.to_top.offset ≤ s.to_top.max) ∧
    (0 ≤ s.to_bottom.offset ∧ s.to_bottom.offset ≤ s.to_bottom.max) := by
  simp only [ScrollModel.scroll, ScrollModel.clamp, ScrollModel.to_top,
    ScrollModel.to_bottom, ScrollModel.max]
  refine ⟨⟨le_max_left _ _, ?_⟩, ⟨le_max_left _ _, ?_⟩, ⟨le_refl _, le_max_left _ _⟩,
    ⟨le_max_left _ _, le_refl _⟩⟩
  · exact max_le (le_max_left _ _) (min_le_left _ _)
  · exact max_le (le_max_left _ _) (min_le_left _ _)

/-- Claim C8: `trim_oldest_entries(n)` removes exactly
`min(max(n,0), |visible|)` entries from the front of the visible list,
returns that count, and leaves the pending queue, the timer, the parameters
and every remaining visible entry (the drop of the original list)
unchanged. -/
theorem trim_oldest_entries_spec (m : TextModel) (n : Int) :
    (m.trim_oldest_entries n).2
        = Min.min (Max.max n 0) (m.visible.length : Int) ∧
    (m.trim_oldest_entries n).1.visible
        = m.visible.drop (Min.min (Max.max n 0) (m.visible.length : Int)).toNat ∧
    (m.trim_oldest_entries n).1.pending = m.pending ∧
    (m.trim_oldest_entries n).1.release_timer = m.release_timer ∧
    (m.trim_oldest_entries n).1.reveal = m.reveal := by
  by_cases h : n ≤ 0 ∨ m.visible = []
  · have hcount : Min.min (Max.max n 0) (m.visible.length : Int) = 0 := by
      rcases h with h | h
      · omega
      · simp [h]
    simp [TextModel.trim_oldest_entries, h, hcount]
  · push_neg at h
    obtain ⟨h1, h2⟩ := h
    have hmax : Max.max n 0 = n := by omega
    simp [TextModel.trim_oldest_entries, h1, h2, hmax, not_le.mpr h1]

/-- Claim C10: with a non-positive wrap width, `TextLayout.wrap` never
raises: it returns `[]` for empty text and the whole text as a single
unwrapped line otherwise. -/
theorem wrap_nonpositive_width (measure : List Char → Nat) (wrapW : Int)
    (text : List Char) (hw : wrapW ≤ 0) :
    TextLayout.wrap measure wrapW text
      = if text = [] then [] else [text] := by
  simp [TextLayout.wrap, hw]

/-- Witness for the C10 theorem at wrap width 0 and the two-character text
"ab". -/
theorem wrap_nonpositive_width_witness :
    (0 : Int) ≤ 0 ∧
    TextLayout.wrap List.length 0 ['a', 'b']
      = if (['a', 'b'] : List Char) = [] then [] else [['a', 'b']] :=
  ⟨le_refl 0, wrap_nonpositive_width List.length 0 ['a', 'b'] (le_refl 0)⟩

/-- Claim C3 (the code contradicts its own comments): with the default
parameters (base 1/45, ellipsis pause 7/20) the per-character times of
`"...a"` are `[1/45, 1/45+7/20, 1/45+7/20, 1/45+7/20]` — the ellipsis pause
is added before the second dot, before the THIRD dot, and before the
following character `a`; and for `"..."` the un-reset carry 7/20 is still
pending at the end of the text.  The source's comments ("Third dot (plain
base)", "then no extra pause after it") and the claim say the pause occurs
before the second dot only. -/
theorem ellipsis_pause_divergence :
    twTimes defaultReveal (1/45) ['.', '.', '.', 'a'] 0
        = ([1/45, 1/45 + 7/20, 1/45 + 7/20, 1/45 + 7/20], 0) ∧
    twTimes defaultReveal (1/45) ['.', '.', '.'] 0
        = ([1/45, 1/45 + 7/20, 1/45 + 7/20], 7/20) := by
  simp +decide [twTimes, defaultReveal]

/-- Claim C1 counterexample: for the input `"a."` (default parameters) the
reveal table computed by `_compute_typewriter_timing` is `[0, 4/53, 8/53]` —
its last element is 8/53, not 1.0 — and the returned total duration 53/180
is not the summed per-character time 2/45 (the trailing long pause is
included). -/
theorem typewriter_table_counterexample :
    (compute_typewriter_timing defaultReveal ['a', '.']).2.getLast? = some (8/53) ∧
    ¬ (compute_typewriter_timing defaultReveal ['a', '.']).2.getLast? = some 1 ∧
    (compute_typewriter_timing defaultReveal ['a', '.']).1 = 53/180 ∧
    (twTimes defaultReveal (1/45) ['a', '.'] 0).1.sum = 2/45 ∧
    ¬ (compute_typewriter_timing defaultReveal ['a', '.']).1
        = (twTimes defaultReveal (1/45) ['a', '.'] 0).1.sum := by
  have hb : Max.max ((1:ℚ)/1000000) 45 = 45 := max_eq_right (by norm_num)
  simp +decide [compute_typewriter_timing, twTimes, cumSums, defaultReveal, hb]
  norm_num

/-- Claim C2 counterexample: after `queue_lines("Hello\nWorld",
wait_for_input=True)` with NO intervening updates, the first press releases
"Hello" still animating (not settled, contradicting the claim's "after 1
press ... settled"), and the second press merely snaps it, so the pending
queue still holds "World" (the claim says it is empty after the 2nd
press). -/
theorem release_ordering_counterexample :
    (helloWorldModel.pressN 1).visible.length = 1 ∧
    (∃ e ∈ (helloWorldModel.pressN 1).visible, e.t < e.duration) ∧
    (helloWorldModel.pressN 2).pending.length = 1 := by
  simp +decide [helloWorldModel, TextModel.pressN, TextModel.on_player_press,
    TextModel.press_release, TextModel.queue_lines, TextModel.init, splitlines,
    splitOnChar, TextModel.append_line, TextModel.make_entry, defaultReveal]

/-- Claim C4 counterexample: in the reachable state `mixedModel` the first
visible entry is still animating, yet a single press releases the pending
head (the code only checks the LAST visible entry), contradicting "only when
no visible entry is animating". -/
theorem press_single_effect_counterexample :
    (∃ e ∈ mixedModel.visible, e.t < e.duration) ∧
    (mixedModel.on_player_press).1.pending = [] ∧
    (mixedModel.on_player_press).1.visible.length
        = mixedModel.visible.length + 1 := by
  simp +decide [mixedModel, TextModel.on_player_press, TextModel.press_release,
    TextModel.append_visible_lines, TextModel.append_line, TextModel.make_entry,
    TextModel.init, defaultReveal]

/-- Claim C9 counterexample: after `ensure_layout` at wrap width 0 the cache
is empty (that much holds), but `content_height` of the one entry "Hi" is 10,
not 0 — the source lays uncached entries out at the fallback width 1024 — and
the draw pass raises a `KeyError` (modelled `Except.error`) instead of
completing as a no-op. -/
theorem degenerate_width_counterexample :
    (ensure_layout List.length (fun _ => 10) 0 c9view 0 [c9entry]).cache = [] ∧
    (content_height List.length (fun _ => 10) 0 0
        (ensure_layout List.length (fun _ => 10) 0 c9view 0 [c9entry])
        [c9entry]).1 = 10 ∧
    ¬ (content_height List.length (fun _ => 10) 0 0
        (ensure_layout List.length (fun _ => 10) 0 c9view 0 [c9entry])
        [c9entry]).1 = 0 ∧
    draw_into List.length (fun _ => 10) 0 c9view 0 [c9entry]
        = Except.error () := by
  refine ⟨?_, ?_, ?_, ?_⟩
  · simp +decide [ensure_layout]
  · simp +decide [content_height, content_height_go, ensure_layout, cache_get,
      layout_entry, render_lines_height, TextLayout.wrap, splitlines,
      splitOnChar, wrapRaw, wrapWords, stripMarkup, c9entry, c9view]
  · simp +decide [content_height, content_height_go, ensure_layout, cache_get,
      layout_entry, render_lines_height, TextLayout.wrap, splitlines,
      splitOnChar, wrapRaw, wrapWords, stripMarkup, c9entry, c9view]
  · simp +decide [draw_into, draw_into_lookups, ensure_layout, cache_get]

/-- Claim C5: for any state and `dt ≥ 0`, (a) a pending head with
`wait_for_input` set is never released by `update` (the pending queue is
unchanged), and (b) `update` reports a release only when the head does not
require input, the last visible entry counts as finished (the source's
`last_done` test, duration minus the 1e-4 tolerance), and the accumulated
timer `release_timer + dt` has reached `per_line_delay`, at which point the
stored timer is reset to 0. -/
theorem update_release_policy (m : TextModel) (dt : ℚ) (hdt : 0 ≤ dt) :
    (∀ first, m.pending.head? = some first → first.wait_for_input = true →
      (m.update dt).1.pending = m.pending) ∧
    ((m.update dt).2.1 = true →
      m.last_done = true ∧
      (∃ first, m.pending.head? = some first ∧ first.wait_for_input = false) ∧
      m.reveal.per_line_delay ≤ m.release_timer + dt ∧
      (m.update dt).1.release_timer = 0) := by
  rcases hp : m.pending with _ | ⟨first, rest⟩
  · simp [TextModel.update, hp]
  · by_cases hw : first.wait_for_input
    · simp [TextModel.update, hp, hw]
    · by_cases hld : m.last_done
      · by_cases hdelay : m.reveal.per_line_delay ≤ m.release_timer + dt
        · simp [TextModel.update, hp, hw, hld, hdelay]
        · simp [TextModel.update, hp, hw, hld, hdelay]
      · simp [TextModel.update, hp, hw, hld]

/-- Witness for the C5 theorem: the release policy instantiated at the
concrete queue `helloWorldModel` (whose pending head requires input) and
`dt = 1`. -/
theorem update_release_policy_witness :
    (0 : ℚ) ≤ 1 ∧
    ((∀ first, helloWorldModel.pending.head? = some first →
        first.wait_for_input = true →
        (helloWorldModel.update 1).1.pending = helloWorldModel.pending) ∧
     ((helloWorldModel.update 1).2.1 = true →
        helloWorldModel.last_done = true ∧
        (∃ first, helloWorldModel.pending.head? = some first ∧
            first.wait_for_input = false) ∧
        helloWorldModel.reveal.per_line_delay
            ≤ helloWorldModel.release_timer + 1 ∧
        (helloWorldModel.update 1).1.release_timer = 0)) :=
  ⟨by norm_num, update_release_policy helloWorldModel 1 (by norm_num)⟩

/-- Claim C4 (amended): a single `on_player_press` performs at most one of
the two effects — if the LAST visible entry is still animating it only snaps
it (pending and timer untouched); otherwise, when the last visible entry (if
any) is settled, it only releases the pending head (or does nothing when
nothing is pending).  The original claim's side condition "only when no
visible entry is animating" is corrected to "only when the last visible
entry is not animating". -/
theorem press_at_most_one_effect (m : TextModel) :
    (∀ last, m.visible.getLast? = some last → last.t < last.duration →
      (m.on_player_press).1.pending = m.pending ∧
      (m.on_player_press).1.visible
          = m.visible.dropLast ++ [{ last with t := last.duration }] ∧
      (m.on_player_press).1.release_timer = m.release_timer) ∧
    ((∀ last, m.visible.getLast? = some last → last.duration ≤ last.t) →
      ((m.pending = [] → (m.on_player_press).1 = m) ∧
       (∀ p rest, m.pending = p :: rest →
         (m.on_player_press).1.pending = rest ∧
         (m.on_player_press).1.visible
             = m.visible ++ [{ p with visible := true }]))) := by
  constructor
  · intro last hlast hanim
    simp [TextModel.on_player_press, hlast, hanim]
  · intro hsettled
    rcases hl : m.visible.getLast? with _ | last
    · refine ⟨fun hp => ?_, fun p rest hp => ?_⟩
      · simp [TextModel.on_player_press, hl, TextModel.press_release, hp]
      · simp [TextModel.on_player_press, hl, TextModel.press_release, hp]
    · have hna : ¬ last.t < last.duration := not_lt.mpr (hsettled last hl)
      refine ⟨fun hp => ?_, fun p rest hp => ?_⟩
      · simp [TextModel.on_player_press, hl, hna, TextModel.press_release, hp]
      · simp [TextModel.on_player_press, hl, hna, TextModel.press_release, hp]

/-- When every visible entry is settled and something is pending, a press
releases the pending head (the step-2 branch of `on_player_press`). -/
theorem press_on_settled_release (m : TextModel) (p : Entry) (rest : List Entry)
    (hv : ∀ e ∈ m.visible, e.duration ≤ e.t) (hp : m.pending = p :: rest) :
    m.on_player_press
      = ({ m with
            release_timer := 0
            pending := rest
            visible := m.visible ++ [{ p with visible := true }] }, true) := by
  rcases hl : m.visible.getLast? with _ | last
  · simp [TextModel.on_player_press, hl, TextModel.press_release, hp]
  · have hmem : last ∈ m.visible := List.mem_of_mem_getLast? hl
    have hna : ¬ last.t < last.duration := not_lt.mpr (hv last hmem)
    simp [TextModel.on_player_press, hl, hna, TextModel.press_release, hp]

/-- When the last visible entry is still animating, a press only snaps it
(the step-1 branch of `on_player_press`). -/
theorem press_snap_last (m : TextModel) (last : Entry)
    (hl : m.visible.getLast? = some last) (ha : last.t < last.duration) :
    m.on_player_press
      = ({ m with
            visible := m.visible.dropLast ++ [{ last with t := last.duration }] },
         true) := by
  simp [TextModel.on_player_press, hl, ha]

/-- Claim C2 (amended): with no intervening `update` calls, entries queued
with `wait_for_input = true` (animated, so released with `elapsed = 0 <
duration`) need TWO presses each — one press releases a line still
animating, the next snaps it — so from a state whose visible entries are all
settled, `2·N` presses (not N) reveal and settle all N pending entries,
emptying the pending queue. -/
theorem presses_reveal_all (m : TextModel)
    (hv : ∀ e ∈ m.visible, e.duration ≤ e.t)
    (hp : ∀ e ∈ m.pending, e.t = 0 ∧ 0 < e.duration) :
    (m.pressN (2 * m.pending.length)).pending = [] ∧
    (m.pressN (2 * m.pending.length)).visible
        = m.visible ++ m.pending.map settled_release := by
  suffices h : ∀ ps : List Entry, ∀ m : TextModel, m.pending = ps →
      (∀ e ∈ m.visible, e.duration ≤ e.t) →
      (∀ e ∈ ps, e.t = 0 ∧ 0 < e.duration) →
      (m.pressN (2 * ps.length)).pending = [] ∧
      (m.pressN (2 * ps.length)).visible = m.visible ++ ps.map settled_release by
    exact h m.pending m rfl hv hp
  intro ps
  induction ps with
  | nil =>
    intro m hpend _ _
    simp [hpend, TextModel.pressN]
  | cons p rest ih =>
    intro m hpend hv2 hp2
    have h1 := press_on_settled_release m p rest hv2 hpend
    have hl1 : (m.on_player_press).1.visible.getLast?
        = some { p with visible := true } := by
      rw [h1]
      simp [List.getLast?_concat]
    have hpt := hp2 p (List.mem_cons_self p rest)
    have ha1 : ({ p with visible := true } : Entry).t
        < ({ p with visible := true } : Entry).duration := by
      show p.t < p.duration
      rw [hpt.1]; exact hpt.2
    have h2 := press_snap_last (m.on_player_press).1 _ hl1 ha1
    have harith : 2 * (p :: rest).length = 2 * rest.length + 2 := by
      simp [List.length_cons]; ring
    have e1 : m.pressN (2 * (p :: rest).length)
        = TextModel.pressN (2 * rest.length)
            (((m.on_player_press).1.on_player_press).1) := by
      rw [harith]
      rfl
    rw [e1, h2]
    have hm2vis : ((m.on_player_press).1.visible.dropLast
          ++ [{ ({ p with visible := true } : Entry) with
                t := ({ p with visible := true } : Entry).duration }])
        = m.visible ++ [settled_release p] := by
      rw [h1]
      simp [List.dropLast_concat, settled_release]
    have key := ih ({ (m.on_player_press).1 with
        visible := (m.on_player_press).1.visible.dropLast
          ++ [{ ({ p with visible := true } : Entry) with
                t := ({ p with visible := true } : Entry).duration }] })
      (by rw [h1])
      (by
        rw [hm2vis]
        intro e he
        rcases List.mem_append.mp he with h | h
        · exact hv2 e h
        · have he2 : e = settled_release p := by simpa using h
          rw [he2]
          simp [settled_release])
      (fun e he => hp2 e (List.mem_cons_of_mem p he))
    rcases key with ⟨k1, k2⟩
    refine ⟨k1, ?_⟩
    rw [k2]
    rw [hm2vis]
    simp [List.map_cons, List.append_assoc]

/-- Witness for the C2 theorem: the concrete model after
`queue_lines("Hello\nWorld", wait_for_input=True)` — its 2 pending lines are
revealed and settled by `2 · 2 = 4` presses. -/
theorem presses_reveal_all_witness :
    (∀ e ∈ helloWorldModel.visible, e.duration ≤ e.t) ∧
    (∀ e ∈ helloWorldModel.pending, e.t = 0 ∧ 0 < e.duration) ∧
    ((helloWorldModel.pressN (2 * helloWorldModel.pending.length)).pending
        = [] ∧
     (helloWorldModel.pressN (2 * helloWorldModel.pending.length)).visible
        = helloWorldModel.visible
            ++ helloWorldModel.pending.map settled_release) := by
  have hv : ∀ e ∈ helloWorldModel.visible, e.duration ≤ e.t := by
    simp +decide [helloWorldModel, TextModel.queue_lines, TextModel.init,
      splitlines, splitOnChar, TextModel.append_line, TextModel.make_entry,
      defaultReveal]
  have hp : ∀ e ∈ helloWorldModel.pending, e.t = 0 ∧ 0 < e.duration := by
    simp +decide [helloWorldModel, TextModel.queue_lines, TextModel.init,
      splitlines, splitOnChar, TextModel.append_line, TextModel.make_entry,
      defaultReveal]
  exact ⟨hv, hp, presses_reveal_all helloWorldModel hv hp⟩

/-- Per-character time list bounds of the typewriter loop: with non-negative
pause parameters and carry, every emitted time is at least `base` and the
final pending carry is non-negative. -/
theorem twTimes_bounds (rp : RevealParams) (base : ℚ)
    (hsp : 0 ≤ rp.pause_short_s) (hlp : 0 ≤ rp.pause_long_s)
    (hep : 0 ≤ rp.pause_ellipsis_s) (text : List Char) (carry : ℚ)
    (hc : 0 ≤ carry) :
    (∀ t ∈ (twTimes rp base text carry).1, base ≤ t) ∧
    0 ≤ (twTimes rp base text carry).2 := by
  induction text, carry using twTimes.induct rp base with
  | case1 carry =>
    simp [twTimes.eq_1]
    assumption
  | case2 rest carry ih =>
    rw [twTimes.eq_2]
    exact ih (by linarith)
  | case3 rest carry ih =>
    rw [twTimes.eq_3]
    have ihs := ih hep
    refine ⟨?_, ihs.2⟩
    intro t ht
    simp only [List.mem_cons] at ht
    rcases ht with rfl | rfl | rfl | ht
    · linarith
    · linarith
    · linarith
    · exact ihs.1 t ht
  | case4 c rest carry h1 h2 ih =>
    rw [twTimes.eq_4 rp base carry c rest h1 h2]
    have hnc : (0:ℚ) ≤
        (if c = ',' ∨ c = ';' ∨ c = ':' then rp.pause_short_s
         else if c = '.' ∨ c = '!' ∨ c = '?' then rp.pause_long_s else 0) := by
      split
      · exact hsp
      · split
        · exact hlp
        · exact le_refl 0
    have ihs := ih hnc
    refine ⟨?_, ihs.2⟩
    intro t ht
    simp only [List.mem_cons] at ht
    rcases ht with rfl | ht
    · linarith
    · exact ihs.1 t ht

/-- The typewriter loop emits one time per visible (non-newline)
character. -/
theorem twTimes_length (rp : RevealParams) (base : ℚ) (text : List Char)
    (carry : ℚ) :
    (twTimes rp base text carry).1.length = visible_count text := by
  induction text, carry using twTimes.induct rp base with
  | case1 carry => simp [twTimes.eq_1, visible_count]
  | case2 rest carry ih =>
    rw [twTimes.eq_2]
    simpa [visible_count] using ih
  | case3 rest carry ih =>
    rw [twTimes.eq_3]
    simp only [List.length_cons]
    rw [ih]
    simp +decide [visible_count]
  | case4 c rest carry h1 h2 ih =>
    rw [twTimes.eq_4 rp base carry c rest h1 h2]
    simp only [List.length_cons]
    rw [ih]
    have hc : (c != '\n') = true := by
      simp only [bne_iff_ne, ne_eq]
      intro h
      exact h1 h
    simp [visible_count, List.filter_cons, hc]

/-- `cumSums` has one output per input. -/
theorem cumSums_length (ts : List ℚ) (acc : ℚ) :
    (cumSums acc ts).length = ts.length := by
  induction ts generalizing acc with
  | nil => simp [cumSums]
  | cons t ts ih => simp [cumSums, ih]

/-- The cumulative sums of non-negative values are non-decreasing (from the
starting accumulator on). -/
theorem cumSums_chain (ts : List ℚ) (h : ∀ t ∈ ts, 0 ≤ t) (acc : ℚ) :
    List.Chain' (· ≤ ·) (acc :: cumSums acc ts) := by
  induction ts generalizing acc with
  | nil => simp [cumSums]
  | cons t ts ih =>
    rw [cumSums]
    refine List.chain'_cons.mpr ⟨?_, ?_⟩
    · have := h t (List.mem_cons_self t ts)
      linarith
    · exact ih (fun x hx => h x (List.mem_cons_of_mem t hx)) (acc + t)

/-- Every cumulative sum of non-negative values is at most the full sum. -/
theorem cumSums_le_sum (ts : List ℚ) (h : ∀ t ∈ ts, 0 ≤ t) (acc : ℚ) :
    ∀ x ∈ cumSums acc ts, x ≤ acc + ts.sum := by
  induction ts generalizing acc with
  | nil => simp [cumSums]
  | cons t ts ih =>
    intro x hx
    rw [cumSums] at hx
    simp only [List.mem_cons] at hx
    rcases hx with rfl | hx
    · have hall : ∀ y ∈ ts, (0:ℚ) ≤ y := fun y hy => h y (List.mem_cons_of_mem t hy)
      have hsum : (0:ℚ) ≤ ts.sum := List.sum_nonneg hall
      simp only [List.sum_cons]
      linarith
    · have := ih (fun y hy => h y (List.mem_cons_of_mem t hy)) (acc + t) x hx
      simp only [List.sum_cons]
      linarith

/-- Every cumulative sum of non-negative values is at least the starting
accumulator. -/
theorem cumSums_ge (ts : List ℚ) (h : ∀ t ∈ ts, 0 ≤ t) (acc : ℚ) :
    ∀ x ∈ cumSums acc ts, acc ≤ x := by
  induction ts generalizing acc with
  | nil => simp [cumSums]
  | cons t ts ih =>
    intro x hx
    rw [cumSums] at hx
    simp only [List.mem_cons] at hx
    have ht := h t (List.mem_cons_self t ts)
    rcases hx with rfl | hx
    · linarith
    · have := ih (fun y hy => h y (List.mem_cons_of_mem t hy)) (acc + t) x hx
      linarith

/-- The last cumulative sum is the accumulator plus the full sum. -/
theorem cumSums_getLast (ts : List ℚ) (hne : ts ≠ []) (acc : ℚ) :
    (cumSums acc ts).getLast? = some (acc + ts.sum) := by
  induction ts generalizing acc with
  | nil => exact absurd rfl hne
  | cons t ts ih =>
    have hstep : ∀ (a : ℚ) (l : List ℚ), l ≠ [] →
        (a :: l).getLast? = l.getLast? := by
      intro a l hl
      rcases l with _ | ⟨x, xs⟩
      · exact absurd rfl hl
      · exact List.getLast?_cons_cons
    rcases Decidable.em (ts = []) with rfl | hts
    · simp [cumSums]
    · have hlen : cumSums (acc + t) ts ≠ [] := by
        intro h0
        have hl2 := cumSums_length ts (acc + t)
        rw [h0] at hl2
        exact hts (List.eq_nil_of_length_eq_zero hl2.symm)
      rw [cumSums, hstep _ _ hlen, ih hts (acc + t)]
      simp only [List.sum_cons]
      ring_nf

/-- Claim C1 (amended): for every text (default parameters) the reveal table
is non-decreasing, starts at 0.0, has length = visible-character-count + 1,
and every entry is AT MOST 1.0; the last entry equals 1.0 exactly when no
pause is still pending at the end of the text (otherwise it falls short),
and the returned total duration is the summed per-character time PLUS that
trailing pending pause. -/
theorem typewriter_table_shape (text : List Char) :
    List.Chain' (· ≤ ·) (compute_typewriter_timing defaultReveal text).2 ∧
    (compute_typewriter_timing defaultReveal text).2.head? = some 0 ∧
    (compute_typewriter_timing defaultReveal text).2.length
        = visible_count text + 1 ∧
    (∀ x ∈ (compute_typewriter_timing defaultReveal text).2, x ≤ 1) ∧
    (compute_typewriter_timing defaultReveal text).1
        = (twTimes defaultReveal (1/45) text 0).1.sum
            + (twTimes defaultReveal (1/45) text 0).2 ∧
    ((twTimes defaultReveal (1/45) text 0).2 = 0 →
      (twTimes defaultReveal (1/45) text 0).1 ≠ [] →
      (compute_typewriter_timing defaultReveal text).2.getLast? = some 1) := by
  have hmax : Max.max ((1:ℚ)/1000000) defaultReveal.chars_per_sec = 45 := by
    rw [show defaultReveal.chars_per_sec = 45 from rfl]
    exact max_eq_right (by norm_num)
  have hbounds := twTimes_bounds defaultReveal (1/45)
    (by norm_num [defaultReveal]) (by norm_num [defaultReveal])
    (by norm_num [defaultReveal]) text 0 (le_refl 0)
  have htimes_nonneg : ∀ t ∈ (twTimes defaultReveal ((1:ℚ)/45) text 0).1,
      (0:ℚ) ≤ t :=
    fun t ht => le_trans (by norm_num) (hbounds.1 t ht)
  have hsum_nonneg : (0:ℚ) ≤ (twTimes defaultReveal ((1:ℚ)/45) text 0).1.sum :=
    List.sum_nonneg htimes_nonneg
  have htrail : (0:ℚ) ≤ (twTimes defaultReveal ((1:ℚ)/45) text 0).2 := hbounds.2
  have hlen := twTimes_length defaultReveal ((1:ℚ)/45) text 0
  have hcomp : compute_typewriter_timing defaultReveal text
      = (if (twTimes defaultReveal ((1:ℚ)/45) text 0).1.sum
            + (twTimes defaultReveal ((1:ℚ)/45) text 0).2 ≤ 0
         then ((0:ℚ), [(0:ℚ)])
         else ((twTimes defaultReveal ((1:ℚ)/45) text 0).1.sum
                 + (twTimes defaultReveal ((1:ℚ)/45) text 0).2,
               0 :: (cumSums 0 (twTimes defaultReveal ((1:ℚ)/45) text 0).1).map
                 (fun x => x / ((twTimes defaultReveal ((1:ℚ)/45) text 0).1.sum
                   + (twTimes defaultReveal ((1:ℚ)/45) text 0).2)))) := by
    simp only [compute_typewriter_timing, hmax]
  by_cases htot : (twTimes defaultReveal ((1:ℚ)/45) text 0).1.sum
      + (twTimes defaultReveal ((1:ℚ)/45) text 0).2 ≤ 0
  · -- degenerate branch: the whole timing is zero and there are no visible
    -- characters
    have hempty : (twTimes defaultReveal ((1:ℚ)/45) text 0).1 = [] := by
      rcases h1 : (twTimes defaultReveal ((1:ℚ)/45) text 0).1 with _ | ⟨t, ts⟩
      · rfl
      · exfalso
        have hts : (0:ℚ) ≤ ts.sum := by
          apply List.sum_nonneg
          intro y hy
          exact le_trans (by norm_num)
            (hbounds.1 y (by rw [h1]; exact List.mem_cons_of_mem t hy))
        have htb : (1:ℚ)/45 ≤ t :=
          hbounds.1 t (by rw [h1]; exact List.mem_cons_self t ts)
        rw [h1] at htot
        simp only [List.sum_cons] at htot
        linarith
    rw [hcomp, if_pos htot]
    have hvc : visible_count text = 0 := by
      rw [← hlen, hempty]
      rfl
    have h2z : (twTimes defaultReveal ((1:ℚ)/45) text 0).2 = 0 := by
      rw [hempty] at htot
      simp only [List.sum_nil, zero_add] at htot
      linarith
    refine ⟨by simp, by simp, by simp [hvc], by norm_num, ?_, ?_⟩
    · rw [hempty, h2z]
      simp
    · intro _ hne
      exact absurd hempty hne
  · push_neg at htot
    rw [hcomp, if_neg (not_le.mpr htot)]
    have hchain := cumSums_chain _ htimes_nonneg 0
    have hsum_le_total : (twTimes defaultReveal ((1:ℚ)/45) text 0).1.sum
        ≤ (twTimes defaultReveal ((1:ℚ)/45) text 0).1.sum
          + (twTimes defaultReveal ((1:ℚ)/45) text 0).2 := by linarith
    refine ⟨?_, by simp, ?_, ?_, by simp, ?_⟩
    · -- monotone
      refine List.chain'_cons'.mpr ⟨?_, ?_⟩
      · intro y hy
        have hym := List.mem_of_mem_head? hy
        obtain ⟨x, hx, rfl⟩ := List.mem_map.mp hym
        exact div_nonneg (cumSums_ge _ htimes_nonneg 0 x hx) (le_of_lt htot)
      · rw [List.chain'_map]
        refine List.Chain'.imp ?_ ((List.chain'_cons'.mp hchain).2)
        intro a b hab
        exact div_le_div_of_nonneg_right hab (le_of_lt htot)
    · -- length
      simp only [List.length_cons, List.length_map, cumSums_length, hlen]
    · -- bounded by one
      intro x hx
      simp only [List.mem_cons, List.mem_map] at hx
      rcases hx with rfl | ⟨y, hy, rfl⟩
      · norm_num
      · have hy_le := cumSums_le_sum _ htimes_nonneg 0 y hy
        rw [zero_add] at hy_le
        rw [div_le_one htot]
        linarith
    · -- last element is 1 when no pause is pending
      intro h2 hne
      have hlne : cumSums 0 (twTimes defaultReveal ((1:ℚ)/45) text 0).1 ≠ [] := by
        intro h0
        have := cumSums_length (twTimes defaultReveal ((1:ℚ)/45) text 0).1 0
        rw [h0] at this
        exact hne (List.eq_nil_of_length_eq_zero this.symm)
      have hmne : (cumSums 0 (twTimes defaultReveal ((1:ℚ)/45) text 0).1).map
          (fun x => x / ((twTimes defaultReveal ((1:ℚ)/45) text 0).1.sum
            + (twTimes defaultReveal ((1:ℚ)/45) text 0).2)) ≠ [] := by
        simpa using hlne
      have hstep : ∀ (a : ℚ) (l : List ℚ), l ≠ [] →
          (a :: l).getLast? = l.getLast? := by
        intro a l hl
        rcases l with _ | ⟨x, xs⟩
        · exact absurd rfl hl
        · exact List.getLast?_cons_cons
      have hsp : (0:ℚ) < (twTimes defaultReveal ((1:ℚ)/45) text 0).1.sum := by
        rw [h2, add_zero] at htot
        exact htot
      rw [hstep _ _ hmne, List.getLast?_map, cumSums_getLast _ hne 0, h2]
      simp only [Option.map_some', zero_add, add_zero, Option.some.injEq]
      exact div_self (ne_of_gt hsp)

/-- The binary search never returns 0 when started (as the source always
does) from `lo = best = 1`. -/
theorem bsearchBest_pos (p : Nat → Bool) (lo hi best : Nat)
    (hlo : 1 ≤ lo) (hbest : 1 ≤ best) : 1 ≤ bsearchBest p lo hi best := by
  induction lo, hi, best using bsearchBest.induct p with
  | case1 lo hi best hle mid hp ih =>
    rw [bsearchBest]
    simp [hle, hp]
    exact ih (by omega) (by omega)
  | case2 lo hi best hle mid hp hmid =>
    rw [bsearchBest]
    simp [hle, hp]
    rw [if_pos hmid]
    exact hbest
  | case3 lo hi best hle mid hp hmid ih =>
    rw [bsearchBest]
    simp [hle, hp]
    rw [if_neg hmid]
    exact ih hlo hbest
  | case4 lo hi best hle =>
    rw [bsearchBest]
    simp [hle]
    exact hbest

/-- The binary search result never exceeds a bound dominating both `hi` and
the starting `best`. -/
theorem bsearchBest_le (p : Nat → Bool) (lo hi best B : Nat)
    (hhi : hi ≤ B) (hbest : best ≤ B) : bsearchBest p lo hi best ≤ B := by
  induction lo, hi, best using bsearchBest.induct p with
  | case1 lo hi best hle mid hp ih =>
    rw [bsearchBest]
    simp [hle, hp]
    exact ih hhi (by omega)
  | case2 lo hi best hle mid hp hmid =>
    rw [bsearchBest]
    simp [hle, hp]
    rw [if_pos hmid]
    exact hbest
  | case3 lo hi best hle mid hp hmid ih =>
    rw [bsearchBest]
    simp [hle, hp]
    rw [if_neg hmid]
    exact ih (by omega) hbest
  | case4 lo hi best hle =>
    rw [bsearchBest]
    simp [hle]
    exact hbest

/-- The binary search returns either a prefix length satisfying the fitting
predicate or the untested initial value 1. -/
theorem bsearchBest_spec (p : Nat → Bool) (lo hi best : Nat)
    (h : p best = true ∨ best = 1) :
    p (bsearchBest p lo hi best) = true ∨ bsearchBest p lo hi best = 1 := by
  induction lo, hi, best using bsearchBest.induct p with
  | case1 lo hi best hle mid hp ih =>
    rw [bsearchBest]
    simp [hle, hp]
    exact ih (Or.inl hp)
  | case2 lo hi best hle mid hp hmid =>
    rw [bsearchBest]
    simp [hle, hp]
    rw [if_pos hmid]
    exact h
  | case3 lo hi best hle mid hp hmid ih =>
    rw [bsearchBest]
    simp [hle, hp]
    rw [if_neg hmid]
    exact ih h
  | case4 lo hi best hle =>
    rw [bsearchBest]
    simp [hle]
    exact h

/-- The hard-wrap binary search takes at least one character per pass. -/
theorem hwBest_pos (measure : List Char → Nat) (wrapW : Int) (s : List Char) :
    1 ≤ hwBest measure wrapW s :=
  bsearchBest_pos _ 1 s.length 1 (le_refl 1) (le_refl 1)

/-- The hard-wrap binary search never takes more than the remaining
characters. -/
theorem hwBest_le (measure : List Char → Nat) (wrapW : Int) (s : List Char)
    (hne : s ≠ []) : hwBest measure wrapW s ≤ s.length := by
  have h1 : 1 ≤ s.length := by
    rcases s with _ | ⟨c, cs⟩
    · exact absurd rfl hne
    · simp
  exact bsearchBest_le _ 1 s.length 1 s.length (le_refl _) h1

/-- Every chunk emitted by `_hard_wrap_long_word` is non-empty and either
fits the wrap width (markup-stripped) or is a single character. -/
theorem hard_wrap_long_word_sound (measure : List Char → Nat) (wrapW : Int)
    (s : List Char) :
    ∀ chunk ∈ hard_wrap_long_word measure wrapW s,
      chunk ≠ [] ∧
      ((measure (stripMarkup chunk) : Int) ≤ wrapW ∨ chunk.length = 1) := by
  induction s using hard_wrap_long_word.induct measure wrapW with
  | case1 =>
    rw [hard_wrap_long_word]
    simp
  | case2 s hne htake =>
    rw [hard_wrap_long_word, dif_neg hne, dif_pos htake]
    simp
  | case3 s hne htake ih =>
    rw [hard_wrap_long_word, dif_neg hne, dif_neg htake]
    intro chunk hchunk
    rcases List.mem_cons.mp hchunk with rfl | hmem
    · refine ⟨htake, ?_⟩
      have hspec := bsearchBest_spec
        (fun m => decide ((measure (stripMarkup (s.take m)) : Int) ≤ wrapW))
        1 s.length 1 (Or.inr rfl)
      rcases hspec with hfit | hone
      · exact Or.inl (of_decide_eq_true hfit)
      · right
        rw [show hwBest measure wrapW s = 1 from hone]
        have hs1 : 1 ≤ s.length := by
          rcases s with _ | ⟨c, cs⟩
          · exact absurd rfl hne
          · simp
        simp [List.length_take]
        omega
    · exact ih chunk hmem

/-- Hard-wrapping a non-empty word yields at least one chunk. -/
theorem hard_wrap_long_word_ne_nil (measure : List Char → Nat) (wrapW : Int)
    (s : List Char) (hne : s ≠ []) :
    hard_wrap_long_word measure wrapW s ≠ [] := by
  rw [hard_wrap_long_word]
  have htake : s.take (hwBest measure wrapW s) ≠ [] := by
    intro h0
    rw [List.take_eq_nil_iff] at h0
    rcases h0 with h0 | h0
    · have := hwBest_pos measure wrapW s
      omega
    · exact hne h0
  rw [dif_neg hne, dif_neg htake]
  simp

/-- The word loop of `wrap` only emits lines that fit the wrap width or are
single characters, and keeps the accumulator `cur` in the same class (or
empty). -/
theorem wrapWords_sound (measure : List Char → Nat) (wrapW : Int)
    (hw : 0 < wrapW) (h0 : measure [] = 0) (ws : List (List Char))
    (cur : List Char)
    (hcur : (measure (stripMarkup cur) : Int) ≤ wrapW ∨ cur.length = 1
        ∨ cur = []) :
    (∀ l ∈ (wrapWords measure wrapW ws cur).1,
        (measure (stripMarkup l) : Int) ≤ wrapW ∨ l.length = 1) ∧
    ((measure (stripMarkup (wrapWords measure wrapW ws cur).2) : Int) ≤ wrapW
        ∨ (wrapWords measure wrapW ws cur).2.length = 1
        ∨ (wrapWords measure wrapW ws cur).2 = []) := by
  induction ws, cur using wrapWords.induct measure wrapW with
  | case1 cur =>
    rw [wrapWords]
    exact ⟨by simp, hcur⟩
  | case2 w ws cur cand hcand ih =>
    rw [wrapWords.eq_2, if_pos hcand]
    exact ih (Or.inl hcand)
  | case3 w ws cur cand hcand hwfit ih =>
    rw [wrapWords.eq_2, if_neg hcand, if_pos hwfit]
    have ihs := ih (Or.inl hwfit)
    refine ⟨?_, ihs.2⟩
    intro l hl
    rcases List.mem_append.mp hl with hpre | hrec
    · by_cases hce : cur = []
      · simp [hce] at hpre
      · simp only [hce, if_false, List.mem_singleton] at hpre
        subst hpre
        rcases hcur with h | h | h
        · exact Or.inl h
        · exact Or.inr h
        · exact absurd h hce
    · exact ihs.1 l hrec
  | case4 w ws cur cand hcand hwfit chunks hchunks ih =>
    rw [wrapWords.eq_2, if_neg hcand, if_neg hwfit, dif_pos hchunks]
    have ihs := ih (Or.inr (Or.inr rfl))
    refine ⟨?_, ihs.2⟩
    intro l hl
    rcases List.mem_append.mp hl with hpre | hrec
    · by_cases hce : cur = []
      · simp [hce] at hpre
      · simp only [hce, if_false, List.mem_singleton] at hpre
        subst hpre
        rcases hcur with h | h | h
        · exact Or.inl h
        · exact Or.inr h
        · exact absurd h hce
    · exact ihs.1 l hrec
  | case5 w ws cur cand hcand hwfit chunks hchunks ih =>
    rw [wrapWords.eq_2, if_neg hcand, if_neg hwfit, dif_neg hchunks]
    have hglast : chunks.getLast hchunks ∈ chunks := List.getLast_mem hchunks
    have hq := hard_wrap_long_word_sound measure wrapW w _ hglast
    have ihs := ih (by
      rcases hq.2 with h | h
      · exact Or.inl h
      · exact Or.inr (Or.inl h))
    refine ⟨?_, ihs.2⟩
    intro l hl
    rcases List.mem_append.mp hl with hpre | hrest
    · rcases List.mem_append.mp hpre with hpre2 | hdrop
      · by_cases hce : cur = []
        · simp [hce] at hpre2
        · simp only [hce, if_false, List.mem_singleton] at hpre2
          subst hpre2
          rcases hcur with h | h | h
          · exact Or.inl h
          · exact Or.inr h
          · exact absurd h hce
      · have hmem : l ∈ chunks := List.mem_of_mem_dropLast hdrop
        exact (hard_wrap_long_word_sound measure wrapW w l hmem).2
    · exact ihs.1 l hrest

/-- Claim C7: for a positive wrap width (and a measure giving the empty
string width 0, as `font.size` does), every line produced by
`TextLayout.wrap` either fits the width once markup-stripped or is a single
character (the unavoidable minimum); and hard-splitting a non-empty
oversized token always yields at least one chunk and never an empty chunk
(each binary-search pass takes at least one character, so the split makes
progress). -/
theorem wrap_width_bound (measure : List Char → Nat) (wrapW : Int)
    (hw : 0 < wrapW) (h0 : measure [] = 0) :
    (∀ text : List Char, ∀ line ∈ TextLayout.wrap measure wrapW text,
        (measure (stripMarkup line) : Int) ≤ wrapW ∨ line.length = 1) ∧
    (∀ word : List Char, word ≠ [] →
        hard_wrap_long_word measure wrapW word ≠ [] ∧
        ∀ chunk ∈ hard_wrap_long_word measure wrapW word, chunk ≠ []) := by
  have hempty : (measure (stripMarkup []) : Int) ≤ wrapW := by
    rw [show stripMarkup [] = [] from rfl, h0]
    exact_mod_cast le_of_lt hw
  constructor
  · intro text line hline
    rw [TextLayout.wrap, if_neg (not_le.mpr hw)] at hline
    by_cases ht : text = []
    · rw [if_pos ht] at hline
      simp at hline
    · rw [if_neg ht, List.mem_flatten] at hline
      obtain ⟨part, hpart, hlp⟩ := hline
      rw [List.mem_map] at hpart
      obtain ⟨raw, hraw, rfl⟩ := hpart
      rw [wrapRaw] at hlp
      by_cases hws : splitOnChar ' ' raw = []
      · rw [if_pos hws] at hlp
        simp at hlp
        subst hlp
        exact Or.inl hempty
      · rw [if_neg hws] at hlp
        have hsound := wrapWords_sound measure wrapW hw h0
          (splitOnChar ' ' raw) [] (Or.inr (Or.inr rfl))
        rcases List.mem_append.mp hlp with hin | hlast
        · exact hsound.1 line hin
        · simp only [List.mem_singleton] at hlast
          subst hlast
          rcases hsound.2 with h | h | h
          · exact Or.inl h
          · exact Or.inr h
          · rw [h]
            exact Or.inl hempty
  · intro word hword
    refine ⟨hard_wrap_long_word_ne_nil measure wrapW word hword, ?_⟩
    intro chunk hchunk
    exact (hard_wrap_long_word_sound measure wrapW word chunk hchunk).1

/-- Witness for the C7 theorem at the concrete measure `List.length` (one
pixel per character) and wrap width 2. -/
theorem wrap_width_bound_witness :
    (0 : Int) < 2 ∧ List.length ([] : List Char) = 0 ∧
    ((∀ text : List Char, ∀ line ∈ TextLayout.wrap List.length 2 text,
        (List.length (stripMarkup line) : Int) ≤ 2 ∨ line.length = 1) ∧
     (∀ word : List Char, word ≠ [] →
        hard_wrap_long_word List.length 2 word ≠ [] ∧
        ∀ chunk ∈ hard_wrap_long_word List.length 2 word, chunk ≠ [])) :=
  ⟨by norm_num, rfl, wrap_width_bound List.length 2 (by norm_num) rfl⟩

/-- A successful cache lookup returns the stored layout of the looked-up
entry. -/
theorem cache_get_some (cache : List (Entry × LayoutC)) (e : Entry)
    (lay : LayoutC) (h : cache_get cache e = some lay) :
    ∃ pr ∈ cache, pr.1 = e ∧ pr.2 = lay := by
  rw [cache_get] at h
  rcases hf : cache.find? (fun p => decide (p.1 = e)) with _ | pr
  · rw [hf] at h
    simp at h
  · rw [hf] at h
    simp only [Option.some.injEq] at h
    have hpmem := List.mem_of_find?_eq_some hf
    have hpp := List.find?_some hf
    simp only [decide_eq_true_eq] at hpp
    exact ⟨pr, hpmem, hpp, h⟩

/-- When the cached wrap width is not positive, the `content_height` loop
lays every entry out at the fallback width 1024 and returns the stacked
height (entry heights plus the inter-entry gap), regardless of the starting
cache, as long as that cache itself only holds fallback layouts. -/
theorem content_height_go_fallback (measure lineH : List Char → Nat)
    (gap entry_gap : Nat) (w : Int) (hw : ¬ 0 < w) (entries : List Entry)
    (cache : List (Entry × LayoutC))
    (hcache : ∀ pr ∈ cache, pr.2 = layout_entry measure lineH gap pr.1 1024) :
    (content_height_go measure lineH gap entry_gap w entries cache).1
      = (entries.map
            (fun e => (layout_entry measure lineH gap e 1024).height)).sum
          + (entries.length - 1) * entry_gap := by
  induction entries generalizing cache with
  | nil => simp [content_height_go]
  | cons e rest ih =>
    have hinv2 : ∀ lay, ∀ pr ∈ cache ++ [(e, lay)],
        lay = layout_entry measure lineH gap e 1024 →
        pr.2 = layout_entry measure lineH gap pr.1 1024 := by
      intro lay pr hpr hlay
      rcases List.mem_append.mp hpr with h | h
      · exact hcache pr h
      · simp only [List.mem_singleton] at h
        subst h
        simpa using hlay
    rcases hg : cache_get cache e with _ | lay
    · have hrec := ih (cache ++ [(e, layout_entry measure lineH gap e 1024)])
        (fun pr hpr => hinv2 _ pr hpr rfl)
      simp only [content_height_go, hg, if_neg hw]
      rw [hrec]
      simp only [List.map_cons, List.sum_cons, List.length_cons]
      by_cases hrest : rest = []
      · simp [hrest]
      · obtain ⟨n, hn⟩ : ∃ n, rest.length = n + 1 := by
          rcases rest with _ | ⟨x, xs⟩
          · exact absurd rfl hrest
          · exact ⟨xs.length, by simp⟩
        simp only [hrest, if_false]
        rw [hn]
        simp only [Nat.add_sub_cancel]
        ring
    · obtain ⟨pr, hprmem, hpr1, hpr2⟩ := cache_get_some cache e lay hg
      have hlay : lay = layout_entry measure lineH gap e 1024 := by
        rw [← hpr2, hcache pr hprmem, hpr1]
      have hrec := ih cache hcache
      simp only [content_height_go, hg, if_neg hw]
      rw [hrec, hlay]
      simp only [List.map_cons, List.sum_cons, List.length_cons]
      by_cases hrest : rest = []
      · simp [hrest]
      · obtain ⟨n, hn⟩ : ∃ n, rest.length = n + 1 := by
          rcases rest with _ | ⟨x, xs⟩
          · exact absurd rfl hrest
          · exact ⟨xs.length, by simp⟩
        simp only [hrest, if_false]
        rw [hn]
        simp only [Nat.add_sub_cancel]
        ring

/-- Claim C9 (amended): with a non-positive wrap width, `ensure_layout` does
leave the cache with zero entries; but `content_height` does NOT return 0 —
it lays every entry out at the hard-coded fallback width 1024 and returns
the resulting stacked height — and `draw_into` on a non-empty entry list
raises a `KeyError` (`Except.error`) reading the cleared cache instead of
completing as a no-op. -/
theorem degenerate_width_behavior (measure lineH : List Char → Nat)
    (gap entry_gap : Nat) (st : TextViewState) (w : Int)
    (entries : List Entry) (hw : w ≤ 0) :
    (ensure_layout measure lineH gap st w entries).cache = [] ∧
    (entries = [] ∨
      draw_into measure lineH gap st w entries = Except.error ()) ∧
    (content_height measure lineH gap entry_gap
        (ensure_layout measure lineH gap st w entries) entries).1
      = (entries.map
            (fun e => (layout_entry measure lineH gap e 1024).height)).sum
          + (entries.length - 1) * entry_gap := by
  have hcache : (ensure_layout measure lineH gap st w entries).cache = [] := by
    rw [ensure_layout, if_pos hw]
  have hww : (ensure_layout measure lineH gap st w entries).wrap_w = w := by
    rw [ensure_layout, if_pos hw]
  refine ⟨hcache, ?_, ?_⟩
  · rcases entries with _ | ⟨e, rest⟩
    · exact Or.inl rfl
    · right
      rw [draw_into]
      have hlook : draw_into_lookups (e :: rest)
          (ensure_layout measure lineH gap st w (e :: rest)).cache
          = Except.error () := by
        rw [hcache, draw_into_lookups]
        have : cache_get [] e = none := by rw [cache_get]; rfl
        rw [this]
      rw [hlook]
  · rcases hent : entries with _ | ⟨e, rest⟩
    · rw [content_height, if_pos rfl]
      simp
    · rw [content_height, if_neg (by simp : ¬ (e :: rest = []))]
      rw [← hent]
      rw [hww, hcache]
      exact content_height_go_fallback measure lineH gap entry_gap w
        (by omega) entries [] (by simp)

/-- Witness for the C9 theorem at a concrete one-entry view (character-count
measure, line height 7, gaps 0, wrap width −3). -/
theorem degenerate_width_behavior_witness :
    (-3 : Int) ≤ 0 ∧
    ((ensure_layout List.length (fun _ => 7) 0 c9view (-3) [c9entry]).cache
        = [] ∧
     (([c9entry] : List Entry) = [] ∨
       draw_into List.length (fun _ => 7) 0 c9view (-3) [c9entry]
         = Except.error ()) ∧
     (content_height List.length (fun _ => 7) 0 0
         (ensure_layout List.length (fun _ => 7) 0 c9view (-3) [c9entry])
         [c9entry]).1
       = (([c9entry] : List Entry).map
            (fun e => (layout_entry List.length (fun _ => 7) 0 e 1024).height)).sum
          + (([c9entry] : List Entry).length - 1) * 0) :=
  ⟨by norm_num,
   degenerate_width_behavior List.length (fun _ => 7) 0 0 c9view (-3)
     [c9entry] (by norm_num)⟩

end Solid
